import Mathlib

/-!
# Verification of the Secret of Evermore world module (`worlds/soe/__init__.py`)

A shallow embedding of the SoE Archipelago world integration layer:

* the catalog-to-numeric-id mappings (`_id_offset`, `_get_location_mapping`,
  `_get_item_mapping`);
* the access-rule compiler (`make_rule`) and the item-type placement filter
  (`make_item_type_limit_rule`);
* the connect-name truncation loop and the placement-file serialization from
  `generate_output`, together with its cleanup/propagation control flow;
* the `Done`/`Victory` event wiring from `set_rules`/`generate_basic`, and the
  connect-name table rewrite from `modify_multidata`.

The external `pyevermizer` catalog is opaque: its entries, and the numeric
values of its `CHECK_*` category constants, appear as parameters or as
structure fields.  Machine integers are modelled as `Nat` (Python integers are
unbounded, so no wraparound is involved anywhere).
-/

namespace SoE

/-- The four placeable catalog categories keyed by `_id_offset`
(`CHECK_ALCHEMY`, `CHECK_BOSS`, `CHECK_GOURD`, `CHECK_NPC`).  Their numeric
values live in the external `pyevermizer` module, so serialization takes the
code assignment as a parameter; only their identity matters here. -/
inductive CheckType where
  | alchemy
  | boss
  | gourd
  | npc
deriving DecidableEq, Repr

/-- Translation of `_id_base = 64000`. -/
def _id_base : Nat := 64000

/-- Translation of `_id_offset`: base offset of each category's id sub-range
(`alchemy 64000..64049, bosses 64050..64099, gourds 64100..64399,
npc 64400..64499`). -/
def _id_offset : CheckType → Nat
  | .alchemy => _id_base + 0
  | .boss => _id_base + 50
  | .gourd => _id_base + 100
  | .npc => _id_base + 400

/-- Number of id slots reserved for each category, per the range comments next
to `_id_offset` (50, 50, 300 and 100 slots respectively). -/
def _capacity : CheckType → Nat
  | .alchemy => 50
  | .boss => 50
  | .gourd => 300
  | .npc => 100

/-- A native `pyevermizer.Location`: the fields of the external catalog entry
that the module reads (`type`, `index`, `name`, `requires`). -/
structure Loc where
  type : CheckType
  index : Nat
  name : String
  requires : List (Nat × Nat)
deriving DecidableEq, Repr

/-- A native `pyevermizer.Item`: the fields of the external catalog entry that
the module reads (`type`, `index`, `name`, `progression`). -/
structure EItem where
  type : CheckType
  index : Nat
  name : String
  progression : Bool
deriving DecidableEq, Repr

/-- The value `apid = _id_offset[loc.type] + loc.index` as computed in
`_get_location_mapping`. -/
def apidLoc (l : Loc) : Nat := _id_offset l.type + l.index

/-- The value `apid = _id_offset[item.type] + item.index` as computed in
`_get_item_mapping`. -/
def apidItem (e : EItem) : Nat := _id_offset e.type + e.index

/-! ## Catalog mappings

Python dicts are modelled as functions into `Option`: `none` is an absent key
(a lookup that would raise `KeyError`), and a present key maps to the stored
value.  `name_to_id` stores `Optional[int]` values, hence the nested
`Option (Option Nat)`.  Assignment order is preserved: a later assignment to
the same key overwrites an earlier one. -/

/-- One iteration of the loop in `_get_location_mapping`:
`apid = _id_offset[loc.type] + loc.index; id_to_raw[apid] = loc;
name_to_id[loc.name] = apid`. -/
def locMapStep (acc : (String → Option (Option Nat)) × (Nat → Option Loc)) (loc : Loc) :
    (String → Option (Option Nat)) × (Nat → Option Loc) :=
  (fun n => if n = loc.name then some (some (apidLoc loc)) else acc.1 n,
   fun i => if i = apidLoc loc then some loc else acc.2 i)

/-- Translation of `_get_location_mapping`: build `name_to_id` and `id_to_raw` from the loaded
locations, then set `name_to_id['Done'] = None`. -/
def _get_location_mapping (locs : List Loc) :
    (String → Option (Option Nat)) × (Nat → Option Loc) :=
  let m := locs.foldl locMapStep (fun _ => none, fun _ => none)
  (fun n => if n = "Done" then some none else m.1 n, m.2)

/-- One iteration of the loop in `_get_item_mapping`: duplicate names are
skipped (`if item.name in name_to_id: continue`), otherwise both dicts are
updated as in `locMapStep`. -/
def itemMapStep (acc : (String → Option (Option Nat)) × (Nat → Option EItem)) (it : EItem) :
    (String → Option (Option Nat)) × (Nat → Option EItem) :=
  if (acc.1 it.name).isSome then acc
  else
    (fun n => if n = it.name then some (some (apidItem it)) else acc.1 n,
     fun i => if i = apidItem it then some it else acc.2 i)

/-- Translation of `_get_item_mapping`: build `name_to_id` and `id_to_raw` from the loaded
items, first occurrence of a name winning, then set
`name_to_id['Victory'] = None`. -/
def _get_item_mapping (items : List EItem) :
    (String → Option (Option Nat)) × (Nat → Option EItem) :=
  let m := items.foldl itemMapStep (fun _ => none, fun _ => none)
  (fun n => if n = "Victory" then some none else m.1 n, m.2)

/-! ## Rule compiler -/

/-- A player's accumulated state, seen through the opaque oracle
`state._soe_has(progress, world, player, count)`: `soeHas progress count` is
the oracle's verdict, and `hasItem name` is `state.has(name, player)`.  The
`world`/`player` arguments of the Python methods are fixed by the closure, so
they do not appear. -/
structure PState where
  soeHas : Nat → Nat → Bool
  hasItem : String → Bool

/-- Translation of `SoEWorld.make_rule`: compile a `requires` list of `(count, progress)`
pairs into the access rule that returns `False` as soon as one pair is not
satisfied and `True` otherwise. -/
def make_rule (requires : List (Nat × Nat)) : PState → Bool :=
  fun state => requires.all (fun cp => state.soeHas cp.2 cp.1)

/-! ## Connect-name truncation (`generate_output`, lines 183–185) -/

/-- Translation of `len(s.encode('utf-8'))` for a string viewed as its character list. -/
def utf8ByteLen : List Char → Nat
  | [] => 0
  | c :: cs => c.utf8Size + utf8ByteLen cs

/-- The `while len(self.connect_name.encode('utf-8')) > 32:` loop body
`self.connect_name = self.connect_name[:-1]`, run to completion.  Terminates
because each iteration drops one character. -/
def shrinkName (l : List Char) : List Char :=
  if utf8ByteLen l ≤ 32 then l else shrinkName l.dropLast
termination_by l.length
decreasing_by
  have hne : l ≠ [] := by
    intro h
    subst h
    simp [utf8ByteLen] at *
  have hpos : 0 < l.length := List.length_pos.mpr hne
  simp [List.length_dropLast]
  omega

/-- Translation of `self.connect_name = player_name[:32]` followed by the shrink loop. -/
def finalizeName (name : List Char) : List Char :=
  shrinkName (name.take 32)

/-- Fuel-indexed version of the shrink loop, used to express termination:
`none` means the fuel ran out before the byte-length test succeeded. -/
def shrinkLoop : Nat → List Char → Option (List Char)
  | 0, _ => none
  | fuel + 1, l => if utf8ByteLen l ≤ 32 then some l else shrinkLoop fuel l.dropLast

/-- The whole connect-name computation on a `String`:
`self.connect_name = player_name[:32]` then the shrink loop. -/
def strFinalizeName (s : String) : String := ⟨finalizeName s.data⟩

/-! ## Engine-side entities seen by this module -/

/-- An engine `Item` as this module reads it: `name`, `advancement`
(progression flag), `code` (`None` for events) and owning `player`.
`SoEItem` adds nothing beyond the game name. -/
structure APItem where
  name : String
  advancement : Bool
  code : Option Nat
  player : Nat
deriving DecidableEq, Repr

/-- Translation of `SoEWorld.create_event`: `SoEItem(event, True, None, self.player)`. -/
def create_event (player : Nat) (event : String) : APItem :=
  ⟨event, true, none, player⟩

/-- A filled engine location as `generate_output` reads it: owning `player`,
`address` (the numeric location id, `None` for the `Done` event location) and
the `item` placed there by the engine. -/
structure FilledLocation where
  player : Nat
  address : Option Nat
  item : APItem
deriving DecidableEq, Repr

/-! ## Placement-file serialization (`generate_output`, lines 203–214)

The numeric values of the external category constants are parameters:
`tc t` is the integer value of the `CHECK_*` constant for category `t` and
`noneCode` the value of `pyevermizer.CHECK_NONE`. -/

/-- The f-string for a foreign item:
`f'{loc.type},{loc.index}:{pyevermizer.CHECK_NONE},{item.code},{item.player}\n'`. -/
def foreignLine (tc : CheckType → Nat) (noneCode : Nat) (loc : Loc)
    (code player : Nat) : String :=
  (toString (tc loc.type) ++ "," ++ toString loc.index ++ ":" ++
    toString noneCode ++ "," ++ toString code ++ "," ++ toString player) ++ "\n"

/-- The f-string for a same-player item:
`f'{loc.type},{loc.index}:{item.type},{item.index}\n'`. -/
def ownLine (tc : CheckType → Nat) (loc : Loc) (e : EItem) : String :=
  (toString (tc loc.type) ++ "," ++ toString loc.index ++ ":" ++
    toString (tc e.type) ++ "," ++ toString e.index) ++ "\n"

/-- The placement-file generation loop: iterate over this player's locations,
skip event items (`item.code is None`), look the location up in
`location_id_to_raw` (a failing dict lookup — `KeyError` — is `none`), and
emit one line per remaining location, foreign items getting the `CHECK_NONE`
form.  The lines are returned in iteration order. -/
def placementLines (p : Nat) (tc : CheckType → Nat) (noneCode : Nat)
    (locRaw : Nat → Option Loc) (itemRaw : Nat → Option EItem) :
    List FilledLocation → Option (List String)
  | [] => some []
  | l :: ls =>
    if l.player = p then
      match l.item.code with
      | none => placementLines p tc noneCode locRaw itemRaw ls
      | some c =>
        match l.address.bind locRaw with
        | none => none
        | some loc =>
          if l.item.player ≠ p then
            (placementLines p tc noneCode locRaw itemRaw ls).map
              (fun rest => foreignLine tc noneCode loc c l.item.player :: rest)
          else
            match itemRaw c with
            | none => none
            | some e =>
              (placementLines p tc noneCode locRaw itemRaw ls).map
                (fun rest => ownLine tc loc e :: rest)
    else placementLines p tc noneCode locRaw itemRaw ls

/-- Modelled from the spec (serialize-placement step, stated for comparison
with `placementLines`): the one record emitted for a location owned by this
player holding a non-event item — the location's native pair mapped either to
the `NONE` category plus item code and owning player (foreign item), or to the
item's native category/index (same player). -/
def specLineFor (p : Nat) (tc : CheckType → Nat) (noneCode : Nat)
    (locRaw : Nat → Option Loc) (itemRaw : Nat → Option EItem)
    (l : FilledLocation) : Option String := do
  let c ← l.item.code
  let loc ← l.address.bind locRaw
  if l.item.player ≠ p then
    pure (foreignLine tc noneCode loc c l.item.player)
  else do
    let e ← itemRaw c
    pure (ownLine tc loc e)

/-- Sequence an optional line over a list of locations, failing if any line
fails. -/
def linesFor (f : FilledLocation → Option String) :
    List FilledLocation → Option (List String)
  | [] => some []
  | l :: ls =>
    match f l, linesFor f ls with
    | some s, some rest => some (s :: rest)
    | _, _ => none

/-- Modelled from the spec (serialize-placement step, stated for comparison
with `placementLines`): exactly one line for every location owned by this
player whose item is non-event, in order. -/
def serializeSpec (p : Nat) (tc : CheckType → Nat) (noneCode : Nat)
    (locRaw : Nat → Option Loc) (itemRaw : Nat → Option EItem)
    (ls : List FilledLocation) : Option (List String) :=
  linesFor (specLineFor p tc noneCode locRaw itemRaw)
    (ls.filter (fun l => l.player == p && l.item.code.isSome))

/-! ## Cleanup and error propagation (`generate_output`, lines 187–229)

Call outcomes are `Except Nat Unit` values: `.error e` is a raised exception
with identity `e`, so that "the original error still propagates" is
expressible.  The combinators mirror Python statement composition. -/

/-- Statement sequencing `a; b`: run `a`, and `b` only if `a` did not raise. -/
def pySeq (a b : Except Nat Unit) : Except Nat Unit :=
  match a with
  | .error e => .error e
  | .ok _ => b

/-- The statement `try: ... except: pass` — any exception of the body is swallowed. -/
def pyTryPass (a : Except Nat Unit) : Except Nat Unit :=
  match a with
  | .error _ => .ok ()
  | .ok u => .ok u

/-- The statement `try: body ... finally: fin` (with the body's bare `except: raise`
re-raise collapsed, being the identity on outcomes): the `finally` block always
runs; if it raises, its exception replaces the body's outcome, otherwise the
body's outcome stands. -/
def pyTryFinally {α : Type} (body : Except Nat α) (fin : Except Nat Unit) :
    Except Nat α :=
  match fin with
  | .error e => .error e
  | .ok _ => body

/-- Python's `out_file[:-4]`: all but the last four characters. -/
def strDropRight4 (s : String) : String := ⟨s.data.take (s.data.length - 4)⟩

/-- The three cleanup targets in deletion order: `placement_file`, `out_file`,
`out_file[:-4] + '_SPOILER.log'`. -/
def cleanupTargets (placementFile outFile : String) : List String :=
  [placementFile, outFile, strDropRight4 outFile ++ "_SPOILER.log"]

/-- The `finally` block of `generate_output`:
`try: os.unlink(placement_file); os.unlink(out_file); os.unlink(...SPOILER.log)
except: pass`, with `unlink f` the outcome of `os.unlink(f)`. -/
def cleanup (unlink : String → Except Nat Unit) (placementFile outFile : String) :
    Except Nat Unit :=
  pyTryPass
    (pySeq (unlink placementFile)
      (pySeq (unlink outFile)
        (unlink (strDropRight4 outFile ++ "_SPOILER.log"))))

/-- The unlink calls actually issued by `cleanup`, in order: a raising call
aborts the `try` body, so later targets are not attempted. -/
def attemptedUnlinks (unlink : String → Except Nat Unit)
    (placementFile outFile : String) : List String :=
  placementFile ::
    match unlink placementFile with
    | .error _ => []
    | .ok _ =>
      outFile ::
        match unlink outFile with
        | .error _ => []
        | .ok _ => [strDropRight4 outFile ++ "_SPOILER.log"]

/-- The `try/except/finally` skeleton of `generate_output`: the body (stages
2–4: placement serialization, native build, artifact packaging) wrapped in
`try: ... except: raise finally: cleanup`. -/
def generateOutputFlow (body : Except Nat Unit)
    (unlink : String → Except Nat Unit) (placementFile outFile : String) :
    Except Nat Unit :=
  pyTryFinally body (cleanup unlink placementFile outFile)

/-! ## `Done` / `Victory` wiring (`set_rules`, `generate_basic`) -/

/-- An engine `Location` as this module writes it: name, numeric `address`
(`None` for the `Done` event location), owning player, held item, locked flag
and access rule. -/
structure APLocation where
  name : String
  address : Option Nat
  player : Nat
  item : Option APItem
  locked : Bool
  accessRule : PState → Bool

/-- Modelled from the spec: `Location.place_locked_item` of the external
engine (`BaseClasses.py`, not part of this repository) stores the item at the
location with a locked (non-randomizable) binding. -/
def place_locked_item (loc : APLocation) (item : APItem) : APLocation :=
  { loc with item := some item, locked := true }

/-- Modelled from the spec: the logic mixin's
`_soe_has(progress, world, player, count=1)` (`Logic.py`, not part of this
repository) consults the accumulated-state oracle, the count defaulting to 1
when omitted — the spec states the `Done` rule is "final-boss unlock token
with count 1". -/
def soe_has_default (s : PState) (progress : Nat) : Bool := s.soeHas progress 1

/-- The slice of the per-player world state that the `Done`/`Victory` wiring
touches: the `Done` location and the player's completion condition. -/
structure DoneWorld where
  done : APLocation
  completion : PState → Bool

/-- The `Done` location as `create_regions` builds it:
`SoELocation(self.player, 'Done', None, r)`, whose `event` flag is set because
the address is `None`; the engine's default access rule is always-true. -/
def doneStart (p : Nat) : APLocation :=
  ⟨"Done", none, p, none, false, fun _ => true⟩

/-- Translation of `SoEWorld.set_rules`, restricted to the `Done` slice: set the completion
condition to `state.has('Victory', player)` and the `Done` access rule to
`state._soe_has(P_FINAL_BOSS, world, player)` (count omitted).  `pFB` is the
numeric value of the external `pyevermizer.P_FINAL_BOSS` token. -/
def set_rules_done (pFB : Nat) (w : DoneWorld) : DoneWorld :=
  { completion := fun s => s.hasItem "Victory",
    done := { w.done with accessRule := fun s => soe_has_default s pFB } }

/-- Translation of `SoEWorld.generate_basic`, restricted to the `Done` slice:
`self.world.get_location('Done', ...).place_locked_item(self.create_event('Victory'))`. -/
def generate_basic_done (p : Nat) (w : DoneWorld) : DoneWorld :=
  { w with done := place_locked_item w.done (create_event p "Victory") }

/-! ## Item-type placement filter (`make_item_type_limit_rule`) -/

/-- Translation of `SoEWorld.make_item_type_limit_rule`:
`lambda item: item.player != self.player or self.item_id_to_raw[item.code].type == item_type`.
A failing dict lookup (`item.code` of `None`, or an id not in
`item_id_to_raw`) is a raised `KeyError`, modelled as `none`; the `or`
short-circuits before the lookup for a foreign item. -/
def make_item_type_limit_rule (p : Nat) (itemRaw : Nat → Option EItem)
    (item_type : CheckType) (item : APItem) : Option Bool :=
  if item.player ≠ p then some true
  else
    match item.code with
    | none => none
    | some c => (itemRaw c).map (fun e => e.type == item_type)

/-! ## Connect-name table rewrite (`modify_multidata`) -/

/-- Translation of `SoEWorld.modify_multidata`, acting on the `connect_names` dict (modelled
as a map into an abstract payload type): if `self.connect_name` is truthy
(non-empty) and differs from the registered player name, read the registered
name's payload (`KeyError` — `none` — if absent), store it under the finalized
name, then delete the registered name's key; otherwise leave the dict
untouched. -/
def modify_multidata {P : Type} (connectName playerName : String)
    (t : String → Option P) : Option (String → Option P) :=
  if connectName ≠ "" ∧ connectName ≠ playerName then
    match t playerName with
    | none => none
    | some payload =>
      let t1 : String → Option P :=
        fun k => if k = connectName then some payload else t k
      some (fun k => if k = playerName then none else t1 k)
  else some t

/-! ## Specification functions for the dict folds

Pure lookup functions used to characterize the mapping folds: the *last*
matching entry wins, matching dict assignment order. -/

/-- The last location in the list bearing a given name (the entry a dict
lookup would see after the build loop). -/
def findLastName : List Loc → String → Option Loc
  | [], _ => none
  | a :: ls, n =>
    match findLastName ls n with
    | some x => some x
    | none => if n = a.name then some a else none

/-- The last location in the list with a given numeric id. -/
def findLastLocId : List Loc → Nat → Option Loc
  | [], _ => none
  | a :: ls, i =>
    match findLastLocId ls i with
    | some x => some x
    | none => if i = apidLoc a then some a else none

/-- The last item in the list with a given numeric id. -/
def findLastItemId : List EItem → Nat → Option EItem
  | [], _ => none
  | a :: ls, i =>
    match findLastItemId ls i with
    | some x => some x
    | none => if i = apidItem a then some a else none

/-- The items actually inserted by `_get_item_mapping`'s loop, given the set
of names already taken: the first occurrence of each name wins. -/
def keptItems : List EItem → (String → Bool) → List EItem
  | [], _ => []
  | a :: ls, seen =>
    if seen a.name then keptItems ls seen
    else a :: keptItems ls (fun n => n == a.name || seen n)

/-! ## Helper lemmas: UTF-8 byte length and the shrink loop -/

theorem utf8ByteLen_append (l₁ l₂ : List Char) :
    utf8ByteLen (l₁ ++ l₂) = utf8ByteLen l₁ + utf8ByteLen l₂ := by
  induction l₁ with
  | nil => simp [utf8ByteLen]
  | cons c cs ih => simp [utf8ByteLen, ih]; omega

theorem length_le_utf8ByteLen (l : List Char) : l.length ≤ utf8ByteLen l := by
  induction l with
  | nil => simp [utf8ByteLen]
  | cons c cs ih =>
    have := Char.utf8Size_pos c
    simp [utf8ByteLen]
    omega

theorem utf8ByteLen_le_four_mul (l : List Char) : utf8ByteLen l ≤ 4 * l.length := by
  induction l with
  | nil => simp [utf8ByteLen]
  | cons c cs ih =>
    have := Char.utf8Size_le_four c
    simp [utf8ByteLen]
    omega

theorem shrinkName_byteLen_le (l : List Char) : utf8ByteLen (shrinkName l) ≤ 32 := by
  induction l using shrinkName.induct with
  | case1 l h => rw [shrinkName]; simp [h]
  | case2 l h ih => rw [shrinkName]; simp [h]; exact ih

theorem shrinkName_append_eq (l : List Char) : ∃ t, shrinkName l ++ t = l := by
  induction l using shrinkName.induct with
  | case1 l h =>
    rw [shrinkName]
    simp [h]
  | case2 l h ih =>
    rw [shrinkName]
    simp only [if_neg h]
    have hne : l ≠ [] := by
      intro hl
      subst hl
      simp [utf8ByteLen] at h
    obtain ⟨t, ht⟩ := ih
    refine ⟨t ++ [l.getLast hne], ?_⟩
    rw [← List.append_assoc, ht, List.dropLast_append_getLast hne]

theorem shrinkName_maximal (l : List Char) :
    ∀ j, utf8ByteLen (l.take j) ≤ 32 → (l.take j).length ≤ (shrinkName l).length := by
  induction l using shrinkName.induct with
  | case1 l h =>
    intro j _
    rw [shrinkName]
    simp [h]
  | case2 l h ih =>
    intro j hj
    rw [shrinkName]
    simp only [if_neg h]
    have hjlt : j < l.length := by
      by_contra hge
      push_neg at hge
      rw [List.take_of_length_le hge] at hj
      exact h hj
    have htake : l.take j = l.dropLast.take j := by
      rw [List.dropLast_eq_take, List.take_take]
      congr 1
      omega
    rw [htake] at hj ⊢
    exact ih j hj

theorem shrinkName_ne_nil (l : List Char) (h : l ≠ []) : shrinkName l ≠ [] := by
  induction l using shrinkName.induct with
  | case1 l hle =>
    rw [shrinkName]
    simp [hle]
    intro hl
    exact h hl
  | case2 l hgt ih =>
    rw [shrinkName]
    simp only [if_neg hgt]
    have hlen : 32 < 4 * l.length := by
      have h1 := utf8ByteLen_le_four_mul l
      omega
    have hdne : l.dropLast ≠ [] := by
      intro hd
      have : l.dropLast.length = 0 := by rw [hd]; rfl
      rw [List.length_dropLast] at this
      omega
    exact ih hdne

/-! ## C4: the rule compiler -/

/-- C4: the access rule compiled from a `requires` list holds on a state iff
every `(count, progress)` pair is satisfied by the state's oracle, and the
empty list compiles to the always-true rule. -/
theorem make_rule_iff (requires : List (Nat × Nat)) (state : PState) :
    (make_rule requires state = true ↔
      ∀ cp ∈ requires, state.soeHas cp.2 cp.1 = true) ∧
    make_rule [] state = true := by
  constructor
  · simp [make_rule, List.all_eq_true]
  · rfl

theorem make_rule_iff_witness :
    (make_rule [(2, 7)] ⟨fun p c => p == 7 && c ≤ 2, fun _ => false⟩ = true ↔
      ∀ cp ∈ [(2, 7)], PState.soeHas ⟨fun p c => p == 7 && c ≤ 2, fun _ => false⟩ cp.2 cp.1 = true) ∧
    make_rule [] ⟨fun p c => p == 7 && c ≤ 2, fun _ => false⟩ = true :=
  make_rule_iff [(2, 7)] ⟨fun p c => p == 7 && c ≤ 2, fun _ => false⟩

/-! ## C10: termination of the truncation loop -/

/-- C10: the character-at-a-time truncation loop terminates on every input
within `length + 1` iterations — each iteration drops one character and the
empty string satisfies the 32-byte bound — and its result is the fixpoint
`shrinkName` with byte length at most 32. -/
theorem shrink_loop_terminates (l : List Char) :
    ∃ r, shrinkLoop (l.length + 1) l = some r ∧ utf8ByteLen r ≤ 32 ∧
      shrinkName l = r := by
  induction l using shrinkName.induct with
  | case1 l h =>
    refine ⟨l, ?_, h, ?_⟩
    · simp [shrinkLoop, h]
    · rw [shrinkName]; simp [h]
  | case2 l h ih =>
    have hne : l ≠ [] := by
      intro hl
      subst hl
      simp [utf8ByteLen] at h
    obtain ⟨r, hr, hr32, hrs⟩ := ih
    have hlen : l.dropLast.length + 1 = l.length := by
      rw [List.length_dropLast]
      have : 0 < l.length := List.length_pos.mpr hne
      omega
    refine ⟨r, ?_, hr32, ?_⟩
    · simp only [shrinkLoop, if_neg h]
      rw [← hlen] at *
      exact hr
    · rw [shrinkName]
      simp [h, hrs]

/-! ## C5: connect-name truncation -/

/-- C5: name finalization returns the longest prefix of the display name whose
UTF-8 encoding is at most 32 bytes: the result is a prefix, it fits in 32
bytes, and every prefix fitting in 32 bytes is no longer than it. -/
theorem connect_name_longest_fit (name : List Char) :
    (∃ t, finalizeName name ++ t = name) ∧
    utf8ByteLen (finalizeName name) ≤ 32 ∧
    ∀ j, utf8ByteLen (name.take j) ≤ 32 →
      (name.take j).length ≤ (finalizeName name).length := by
  refine ⟨?_, shrinkName_byteLen_le _, ?_⟩
  · obtain ⟨t, ht⟩ := shrinkName_append_eq (name.take 32)
    refine ⟨t ++ name.drop 32, ?_⟩
    rw [finalizeName, ← List.append_assoc, ht, List.take_append_drop]
  · intro j hj
    have hch : (name.take j).length ≤ 32 := le_trans (length_le_utf8ByteLen _) hj
    have heq : name.take j = (name.take 32).take j := by
      rw [List.take_take]
      by_cases hj32 : j ≤ 32
      · congr 1
        omega
      · have hlen : name.length ≤ 32 := by
          rw [List.length_take] at hch
          omega
        have h32 : j ⊓ 32 = 32 := by omega
        rw [h32, List.take_of_length_le hlen,
          List.take_of_length_le (by omega : name.length ≤ j)]
    rw [heq] at hj ⊢
    exact shrinkName_maximal (name.take 32) j hj

theorem connect_name_longest_fit_witness :
    (∃ t, finalizeName (List.replicate 20 'ä') ++ t = List.replicate 20 'ä') ∧
    utf8ByteLen (finalizeName (List.replicate 20 'ä')) ≤ 32 ∧
    ∀ j, utf8ByteLen ((List.replicate 20 'ä').take j) ≤ 32 →
      ((List.replicate 20 'ä').take j).length ≤
        (finalizeName (List.replicate 20 'ä')).length :=
  connect_name_longest_fit (List.replicate 20 'ä')

/-! ## C9: connect-name table rewrite -/

theorem shrinkName_nil : shrinkName ([] : List Char) = [] := by
  rw [shrinkName]
  simp [utf8ByteLen]

theorem strFinalizeName_empty : strFinalizeName "" = "" := by
  show (⟨shrinkName (("" : String).data.take 32)⟩ : String) = ""
  rw [show ("" : String).data.take 32 = [] from rfl, shrinkName_nil]

theorem strFinalizeName_ne_empty (s : String) (h : s ≠ "") :
    strFinalizeName s ≠ "" := by
  intro hc
  have hdata : finalizeName s.data = [] := congrArg String.data hc
  have hsne : s.data ≠ [] := by
    intro hd
    exact h (String.ext (by rw [hd]))
  have ht : s.data.take 32 ≠ [] := by
    intro htn
    rcases List.take_eq_nil_iff.mp htn with h0 | h0
    · exact absurd h0 (by norm_num)
    · exact hsne h0
  exact shrinkName_ne_nil _ ht hdata

/-- C9: once the finalized connect name is available, `modify_multidata`
rewrites the shared connect-name table: if the finalized name differs from the
registered player name, the registered key is removed and the finalized name
is inserted, bound to the payload the registered key held; if the names are
equal, the table is returned unchanged. -/
theorem modify_multidata_rewrite {P : Type} (pn : String) (t : String → Option P)
    (payload : P) (cn : String) (hreg : t pn = some payload)
    (hcn : cn = strFinalizeName pn) :
    (cn ≠ pn → modify_multidata cn pn t =
      some (fun k => if k = pn then none
        else if k = cn then some payload else t k)) ∧
    (cn = pn → modify_multidata cn pn t = some t) := by
  constructor
  · intro hne
    have hpn : pn ≠ "" := by
      intro hp
      apply hne
      rw [hcn, hp, strFinalizeName_empty]
    have hcne : cn ≠ "" := by
      rw [hcn]
      exact strFinalizeName_ne_empty pn hpn
    unfold modify_multidata
    rw [if_pos ⟨hcne, hne⟩, hreg]
  · intro heq
    unfold modify_multidata
    rw [if_neg]
    intro hand
    exact hand.2 heq

theorem modify_multidata_rewrite_witness :
    (strFinalizeName "Player1" ≠ "Player1" →
      modify_multidata (strFinalizeName "Player1") "Player1"
        (fun k => if k = "Player1" then some 5 else none) =
        some (fun k => if k = "Player1" then none
          else if k = strFinalizeName "Player1" then some 5
          else if k = "Player1" then some 5 else none)) ∧
    (strFinalizeName "Player1" = "Player1" →
      modify_multidata (strFinalizeName "Player1") "Player1"
        (fun k => if k = "Player1" then some 5 else none) =
        some (fun k => if k = "Player1" then some 5 else none)) :=
  modify_multidata_rewrite "Player1"
    (fun k => if k = "Player1" then some 5 else none) 5
    (strFinalizeName "Player1") (by simp) rfl

/-! ## C7: `Done` / `Victory` wiring -/

/-- C7: after rule setup and basic generation, the `Done` location holds the
synthetic `Victory` event item (no numeric code, progression-flagged) under a
locked binding, its access rule is the final-boss token with count 1, and the
player's completion condition is possession of `Victory`. -/
theorem done_victory_wiring (p pFB : Nat) (w0 : DoneWorld) :
    (generate_basic_done p (set_rules_done pFB w0)).done.item =
      some (create_event p "Victory") ∧
    (create_event p "Victory").name = "Victory" ∧
    (create_event p "Victory").code = none ∧
    (create_event p "Victory").advancement = true ∧
    (generate_basic_done p (set_rules_done pFB w0)).done.locked = true ∧
    (∀ s, (generate_basic_done p (set_rules_done pFB w0)).done.accessRule s =
      s.soeHas pFB 1) ∧
    (∀ s, (generate_basic_done p (set_rules_done pFB w0)).completion s =
      s.hasItem "Victory") :=
  ⟨rfl, rfl, rfl, rfl, rfl, fun _ => rfl, fun _ => rfl⟩

/-! ## C8: category-restricted placement filter -/

/-- C8: the installed item filter accepts a candidate iff the candidate
belongs to another player or its native category equals the location's; in
particular a same-player candidate of a different category is rejected. -/
theorem item_type_limit_rule_iff (p : Nat) (itemRaw : Nat → Option EItem)
    (t : CheckType) (item : APItem) (c : Nat) (e : EItem)
    (hc : item.code = some c) (he : itemRaw c = some e) :
    (make_item_type_limit_rule p itemRaw t item = some true ↔
      item.player ≠ p ∨ e.type = t) ∧
    (item.player = p → e.type ≠ t →
      make_item_type_limit_rule p itemRaw t item = some false) := by
  unfold make_item_type_limit_rule
  rw [hc]
  constructor
  · by_cases hp : item.player ≠ p
    · simp [hp]
    · simp only [if_neg hp, he, Option.map_some]
      push_neg at hp
      simp [hp, beq_iff_eq]
  · intro hp ht
    rw [if_neg (by simp [hp])]
    simp [he, beq_eq_false_iff_ne, ht]

theorem item_type_limit_rule_iff_witness :
    (make_item_type_limit_rule 1
        (fun c => if c = 64050 then some ⟨CheckType.boss, 0, "Boss item", false⟩ else none)
        CheckType.alchemy ⟨"Boss item", false, some 64050, 1⟩ = some true ↔
      (⟨"Boss item", false, some 64050, 1⟩ : APItem).player ≠ 1 ∨
        (⟨CheckType.boss, 0, "Boss item", false⟩ : EItem).type = CheckType.alchemy) ∧
    ((⟨"Boss item", false, some 64050, 1⟩ : APItem).player = 1 →
      (⟨CheckType.boss, 0, "Boss item", false⟩ : EItem).type ≠ CheckType.alchemy →
      make_item_type_limit_rule 1
        (fun c => if c = 64050 then some ⟨CheckType.boss, 0, "Boss item", false⟩ else none)
        CheckType.alchemy ⟨"Boss item", false, some 64050, 1⟩ = some false) :=
  item_type_limit_rule_iff 1
    (fun c => if c = 64050 then some ⟨CheckType.boss, 0, "Boss item", false⟩ else none)
    CheckType.alchemy ⟨"Boss item", false, some 64050, 1⟩ 64050
    ⟨CheckType.boss, 0, "Boss item", false⟩ rfl (by simp)

/-! ## C6: cleanup runs on every exit path, never raises, never masks -/

theorem pyTryPass_pySeq_ok (a b c : Except Nat Unit) :
    pyTryPass (pySeq a (pySeq b c)) = Except.ok () := by
  rcases a with e | u
  · rfl
  · rcases b with e | u
    · rfl
    · rcases c with e | u
      · rfl
      · rfl

theorem strDropRight4_append_sfc (b : String) :
    strDropRight4 (b ++ ".sfc") = b := by
  apply String.ext
  show (b ++ ".sfc").data.take ((b ++ ".sfc").data.length - 4) = b.data
  rw [String.data_append, show (".sfc" : String).data = ['.', 's', 'f', 'c'] from rfl,
    List.length_append]
  simp only [List.length_cons, List.length_nil]
  rw [show b.data.length + (0 + 1 + 1 + 1 + 1) - 4 = b.data.length by omega]
  exact List.take_left b.data _

/-- C6: for every body outcome and every combination of deletion outcomes, the
cleanup block runs and returns without raising (deletion failures, including
already-missing files or a repeated cleanup, are swallowed), the body's
outcome — success or the original error — propagates unchanged, the first
deletion is always attempted, and when no deletion fails all three transient
files (placement file, intermediate image, spoiler log) are deleted. -/
theorem cleanup_swallows_and_propagates (body : Except Nat Unit)
    (unlink : String → Except Nat Unit) (base : String) :
    cleanup unlink (base ++ ".txt") (base ++ ".sfc") = Except.ok () ∧
    generateOutputFlow body unlink (base ++ ".txt") (base ++ ".sfc") = body ∧
    ((∀ f, unlink f = Except.ok ()) →
      attemptedUnlinks unlink (base ++ ".txt") (base ++ ".sfc") =
        [base ++ ".txt", base ++ ".sfc", base ++ "_SPOILER.log"]) ∧
    (attemptedUnlinks unlink (base ++ ".txt") (base ++ ".sfc")).head? =
      some (base ++ ".txt") := by
  have hcl : cleanup unlink (base ++ ".txt") (base ++ ".sfc") = Except.ok () :=
    pyTryPass_pySeq_ok _ _ _
  refine ⟨hcl, ?_, ?_, rfl⟩
  · unfold generateOutputFlow
    rw [hcl]
    rfl
  · intro hall
    unfold attemptedUnlinks
    rw [hall (base ++ ".txt"), hall (base ++ ".sfc"), strDropRight4_append_sfc]

theorem cleanup_swallows_and_propagates_witness :
    cleanup (fun _x : String => (Except.ok () : Except Nat Unit))
      ("AP_demo" ++ ".txt") ("AP_demo" ++ ".sfc") = Except.ok () ∧
    generateOutputFlow (Except.error 7)
      (fun _x : String => (Except.ok () : Except Nat Unit))
      ("AP_demo" ++ ".txt") ("AP_demo" ++ ".sfc") = Except.error 7 ∧
    ((∀ f : String,
        (fun _x : String => (Except.ok () : Except Nat Unit)) f = Except.ok ()) →
      attemptedUnlinks (fun _x : String => (Except.ok () : Except Nat Unit))
        ("AP_demo" ++ ".txt") ("AP_demo" ++ ".sfc") =
        ["AP_demo" ++ ".txt", "AP_demo" ++ ".sfc", "AP_demo" ++ "_SPOILER.log"]) ∧
    (attemptedUnlinks (fun _x : String => (Except.ok () : Except Nat Unit))
      ("AP_demo" ++ ".txt") ("AP_demo" ++ ".sfc")).head? =
      some ("AP_demo" ++ ".txt") :=
  cleanup_swallows_and_propagates (Except.error 7)
    (fun _x : String => (Except.ok () : Except Nat Unit)) "AP_demo"

/-! ## C3: numeric ids — derivation, ranges, uniqueness -/

theorem offset_add_inj (t₁ t₂ : CheckType) (i₁ i₂ : Nat)
    (h₁ : i₁ < _capacity t₁) (h₂ : i₂ < _capacity t₂)
    (h : _id_offset t₁ + i₁ = _id_offset t₂ + i₂) : t₁ = t₂ ∧ i₁ = i₂ := by
  cases t₁ <;> cases t₂ <;> simp_all [_id_offset, _capacity, _id_base] <;> omega

theorem apidLoc_inj_on (locs : List Loc)
    (hb : ∀ l ∈ locs, l.index < _capacity l.type)
    (hk : ∀ l₁ ∈ locs, ∀ l₂ ∈ locs, l₁.type = l₂.type → l₁.index = l₂.index → l₁ = l₂) :
    ∀ l₁ ∈ locs, ∀ l₂ ∈ locs, apidLoc l₁ = apidLoc l₂ → l₁ = l₂ := by
  intro l₁ h₁ l₂ h₂ h
  obtain ⟨ht, hi⟩ := offset_add_inj _ _ _ _ (hb l₁ h₁) (hb l₂ h₂) h
  exact hk l₁ h₁ l₂ h₂ ht hi

theorem apidItem_inj_on (items : List EItem)
    (hb : ∀ e ∈ items, e.index < _capacity e.type)
    (hk : ∀ e₁ ∈ items, ∀ e₂ ∈ items, e₁.type = e₂.type → e₁.index = e₂.index → e₁ = e₂) :
    ∀ e₁ ∈ items, ∀ e₂ ∈ items, apidItem e₁ = apidItem e₂ → e₁ = e₂ := by
  intro e₁ h₁ e₂ h₂ h
  obtain ⟨ht, hi⟩ := offset_add_inj _ _ _ _ (hb e₁ h₁) (hb e₂ h₂) h
  exact hk e₁ h₁ e₂ h₂ ht hi

/-- C3: for every loaded catalog entry, its numeric id is the category's base
offset plus its index, lies in the category's reserved sub-range (the four
bases being 64000+0, +50, +100 and +400), and — given the catalog's distinct
`(category, index)` natural keys and in-range indexes — is unique across the
location catalog and across the item catalog. -/
theorem numeric_ids_in_range_unique (locs : List Loc) (items : List EItem)
    (hLbound : ∀ l ∈ locs, l.index < _capacity l.type)
    (hLkey : ∀ l₁ ∈ locs, ∀ l₂ ∈ locs, l₁.type = l₂.type → l₁.index = l₂.index → l₁ = l₂)
    (hIbound : ∀ e ∈ items, e.index < _capacity e.type)
    (hIkey : ∀ e₁ ∈ items, ∀ e₂ ∈ items, e₁.type = e₂.type → e₁.index = e₂.index → e₁ = e₂) :
    (_id_offset .alchemy = _id_base + 0 ∧ _id_offset .boss = _id_base + 50 ∧
      _id_offset .gourd = _id_base + 100 ∧ _id_offset .npc = _id_base + 400) ∧
    (∀ l ∈ locs, apidLoc l = _id_offset l.type + l.index ∧
      _id_offset l.type ≤ apidLoc l ∧
      apidLoc l < _id_offset l.type + _capacity l.type) ∧
    (∀ l₁ ∈ locs, ∀ l₂ ∈ locs, apidLoc l₁ = apidLoc l₂ → l₁ = l₂) ∧
    (∀ e ∈ items, apidItem e = _id_offset e.type + e.index ∧
      _id_offset e.type ≤ apidItem e ∧
      apidItem e < _id_offset e.type + _capacity e.type) ∧
    (∀ e₁ ∈ items, ∀ e₂ ∈ items, apidItem e₁ = apidItem e₂ → e₁ = e₂) := by
  refine ⟨⟨rfl, rfl, rfl, rfl⟩, ?_, apidLoc_inj_on locs hLbound hLkey, ?_,
    apidItem_inj_on items hIbound hIkey⟩
  · intro l hl
    exact ⟨rfl, Nat.le_add_right _ _, Nat.add_lt_add_left (hLbound l hl) _⟩
  · intro e he
    exact ⟨rfl, Nat.le_add_right _ _, Nat.add_lt_add_left (hIbound e he) _⟩

theorem numeric_ids_in_range_unique_witness :
    (_id_offset .alchemy = _id_base + 0 ∧ _id_offset .boss = _id_base + 50 ∧
      _id_offset .gourd = _id_base + 100 ∧ _id_offset .npc = _id_base + 400) ∧
    (∀ l ∈ [(⟨CheckType.alchemy, 0, "A0", []⟩ : Loc), ⟨CheckType.gourd, 5, "G5", []⟩],
      apidLoc l = _id_offset l.type + l.index ∧
      _id_offset l.type ≤ apidLoc l ∧
      apidLoc l < _id_offset l.type + _capacity l.type) ∧
    (∀ l₁ ∈ [(⟨CheckType.alchemy, 0, "A0", []⟩ : Loc), ⟨CheckType.gourd, 5, "G5", []⟩],
      ∀ l₂ ∈ [(⟨CheckType.alchemy, 0, "A0", []⟩ : Loc), ⟨CheckType.gourd, 5, "G5", []⟩],
      apidLoc l₁ = apidLoc l₂ → l₁ = l₂) ∧
    (∀ e ∈ [(⟨CheckType.boss, 1, "B1", true⟩ : EItem)],
      apidItem e = _id_offset e.type + e.index ∧
      _id_offset e.type ≤ apidItem e ∧
      apidItem e < _id_offset e.type + _capacity e.type) ∧
    (∀ e₁ ∈ [(⟨CheckType.boss, 1, "B1", true⟩ : EItem)],
      ∀ e₂ ∈ [(⟨CheckType.boss, 1, "B1", true⟩ : EItem)],
      apidItem e₁ = apidItem e₂ → e₁ = e₂) :=
  numeric_ids_in_range_unique
    [⟨CheckType.alchemy, 0, "A0", []⟩, ⟨CheckType.gourd, 5, "G5", []⟩]
    [⟨CheckType.boss, 1, "B1", true⟩]
    (by decide) (by decide) (by decide) (by decide)

/-! ## Fold characterizations for `_get_location_mapping` -/

theorem locFold_fst (locs : List Loc) : ∀ acc n,
    (locs.foldl locMapStep acc).1 n =
      match findLastName locs n with
      | some l => some (some (apidLoc l))
      | none => acc.1 n := by
  induction locs with
  | nil => intro acc n; rfl
  | cons a ls ih =>
    intro acc n
    show (ls.foldl locMapStep (locMapStep acc a)).1 n = _
    rw [ih]
    cases hfl : findLastName ls n with
    | some x => simp [findLastName, hfl]
    | none =>
      simp only [findLastName, hfl]
      by_cases hn : n = a.name
      · simp [locMapStep, hn]
      · simp [locMapStep, hn]

theorem locFold_snd (locs : List Loc) : ∀ acc i,
    (locs.foldl locMapStep acc).2 i =
      match findLastLocId locs i with
      | some l => some l
      | none => acc.2 i := by
  induction locs with
  | nil => intro acc i; rfl
  | cons a ls ih =>
    intro acc i
    show (ls.foldl locMapStep (locMapStep acc a)).2 i = _
    rw [ih]
    cases hfl : findLastLocId ls i with
    | some x => simp [findLastLocId, hfl]
    | none =>
      simp only [findLastLocId, hfl]
      by_cases hi : i = apidLoc a
      · simp [locMapStep, hi]
      · simp [locMapStep, hi]

theorem findLastName_mem (locs : List Loc) (n : String) (l : Loc)
    (h : findLastName locs n = some l) : l ∈ locs ∧ l.name = n := by
  induction locs with
  | nil => simp [findLastName] at h
  | cons a ls ih =>
    simp only [findLastName] at h
    cases hfl : findLastName ls n with
    | some x =>
      rw [hfl] at h
      injection h with hxl
      subst hxl
      obtain ⟨hm, hn⟩ := ih hfl
      exact ⟨List.mem_cons_of_mem a hm, hn⟩
    | none =>
      rw [hfl] at h
      by_cases hn : n = a.name
      · rw [if_pos hn] at h
        obtain rfl : a = l := Option.some.inj h
        exact ⟨List.mem_cons_self a ls, hn.symm⟩
      · rw [if_neg hn] at h
        cases h

theorem findLastName_of_mem (locs : List Loc) (l : Loc) (hl : l ∈ locs)
    (hinj : ∀ l₁ ∈ locs, ∀ l₂ ∈ locs, l₁.name = l₂.name → l₁ = l₂) :
    findLastName locs l.name = some l := by
  induction locs with
  | nil => simp at hl
  | cons a ls ih =>
    simp only [findLastName]
    rcases List.mem_cons.mp hl with rfl | hmem
    · cases hfl : findLastName ls l.name with
      | some x =>
        have hx := findLastName_mem ls l.name x hfl
        have hxl : x = l :=
          hinj x (List.mem_cons_of_mem _ hx.1) l (List.mem_cons_self _ _) hx.2
        rw [hxl]
      | none => simp
    · have hrec := ih hmem (fun x hx y hy =>
        hinj x (List.mem_cons_of_mem _ hx) y (List.mem_cons_of_mem _ hy))
      rw [hrec]

theorem findLastLocId_mem (locs : List Loc) (i : Nat) (l : Loc)
    (h : findLastLocId locs i = some l) : l ∈ locs ∧ i = apidLoc l := by
  induction locs with
  | nil => simp [findLastLocId] at h
  | cons a ls ih =>
    simp only [findLastLocId] at h
    cases hfl : findLastLocId ls i with
    | some x =>
      rw [hfl] at h
      injection h with hxl
      subst hxl
      obtain ⟨hm, hi⟩ := ih hfl
      exact ⟨List.mem_cons_of_mem a hm, hi⟩
    | none =>
      rw [hfl] at h
      by_cases hi : i = apidLoc a
      · rw [if_pos hi] at h
        obtain rfl : a = l := Option.some.inj h
        exact ⟨List.mem_cons_self a ls, hi⟩
      · rw [if_neg hi] at h
        cases h

theorem findLastLocId_of_mem (locs : List Loc) (l : Loc) (hl : l ∈ locs)
    (hinj : ∀ l₁ ∈ locs, ∀ l₂ ∈ locs, apidLoc l₁ = apidLoc l₂ → l₁ = l₂) :
    findLastLocId locs (apidLoc l) = some l := by
  induction locs with
  | nil => simp at hl
  | cons a ls ih =>
    simp only [findLastLocId]
    rcases List.mem_cons.mp hl with rfl | hmem
    · cases hfl : findLastLocId ls (apidLoc l) with
      | some x =>
        have hx := findLastLocId_mem ls (apidLoc l) x hfl
        have hxl : x = l :=
          hinj x (List.mem_cons_of_mem _ hx.1) l (List.mem_cons_self _ _) hx.2.symm
        rw [hxl]
      | none => simp
    · have hrec := ih hmem (fun x hx y hy =>
        hinj x (List.mem_cons_of_mem _ hx) y (List.mem_cons_of_mem _ hy))
      rw [hrec]

/-! ## Fold characterizations for `_get_item_mapping` -/

theorem itemFold_fst (items : List EItem) : ∀ acc n,
    (items.foldl itemMapStep acc).1 n =
      match acc.1 n with
      | some v => some v
      | none =>
        match items.find? (fun e => e.name == n) with
        | some e => some (some (apidItem e))
        | none => none := by
  induction items with
  | nil =>
    intro acc n
    cases h : acc.1 n <;> simp [h, List.find?]
  | cons a ls ih =>
    intro acc n
    show (ls.foldl itemMapStep (itemMapStep acc a)).1 n = _
    rw [ih]
    unfold itemMapStep
    by_cases hseen : (acc.1 a.name).isSome
    · rw [if_pos hseen]
      cases hn : acc.1 n with
      | some v => simp [hn]
      | none =>
        have hne : (a.name == n) = false := by
          rw [beq_eq_false_iff_ne]
          intro he
          rw [he, hn] at hseen
          simp at hseen
        simp [hn, List.find?, hne]
    · rw [if_neg hseen]
      have hnone : acc.1 a.name = none := Option.not_isSome_iff_eq_none.mp hseen
      by_cases hn : n = a.name
      · subst hn
        simp [hnone, List.find?]
      · have hne : (a.name == n) = false := by
          rw [beq_eq_false_iff_ne]
          exact fun he => hn he.symm
        cases hv : acc.1 n with
        | some v => simp [hv, if_neg hn]
        | none => simp [hv, if_neg hn, List.find?, hne]

theorem itemFold_snd (items : List EItem) : ∀ acc i,
    (items.foldl itemMapStep acc).2 i =
      match findLastItemId (keptItems items (fun n => (acc.1 n).isSome)) i with
      | some e => some e
      | none => acc.2 i := by
  induction items with
  | nil => intro acc i; rfl
  | cons a ls ih =>
    intro acc i
    show (ls.foldl itemMapStep (itemMapStep acc a)).2 i = _
    rw [ih]
    unfold itemMapStep
    by_cases hseen : (acc.1 a.name).isSome
    · rw [if_pos hseen]
      have hk : keptItems (a :: ls) (fun n => (acc.1 n).isSome) =
          keptItems ls (fun n => (acc.1 n).isSome) := by
        simp [keptItems, hseen]
      rw [hk]
    · rw [if_neg hseen]
      have hkfun :
          (fun n => ((if n = a.name then some (some (apidItem a)) else acc.1 n)).isSome) =
          (fun n => n == a.name || (acc.1 n).isSome) := by
        funext n
        by_cases hn : n = a.name <;> simp [hn]
      have hk : keptItems (a :: ls) (fun n => (acc.1 n).isSome) =
          a :: keptItems ls (fun n => n == a.name || (acc.1 n).isSome) := by
        simp only [keptItems]
        rw [if_neg (by simpa using hseen)]
      rw [hkfun, hk]
      simp only [findLastItemId]
      cases hfl : findLastItemId
          (keptItems ls (fun n => n == a.name || (acc.1 n).isSome)) i with
      | some x => rfl
      | none =>
        by_cases hi : i = apidItem a
        · simp [hi]
        · simp [hi]

theorem keptItems_subset (items : List EItem) (seen : String → Bool) (e : EItem)
    (h : e ∈ keptItems items seen) : e ∈ items := by
  induction items generalizing seen with
  | nil => simp [keptItems] at h
  | cons a ls ih =>
    simp only [keptItems] at h
    by_cases hs : seen a.name
    · rw [if_pos hs] at h
      exact List.mem_cons_of_mem a (ih _ h)
    · rw [if_neg hs] at h
      rcases List.mem_cons.mp h with rfl | hmem
      · exact List.mem_cons_self e ls
      · exact List.mem_cons_of_mem a (ih _ hmem)

theorem keptItems_first (items : List EItem) (seen : String → Bool) (e : EItem)
    (h : e ∈ keptItems items seen) :
    seen e.name = false ∧ items.find? (fun x => x.name == e.name) = some e := by
  induction items generalizing seen with
  | nil => simp [keptItems] at h
  | cons a ls ih =>
    simp only [keptItems] at h
    by_cases hs : seen a.name
    · rw [if_pos hs] at h
      obtain ⟨hsn, hfind⟩ := ih _ h
      have hne : (a.name == e.name) = false := by
        rw [beq_eq_false_iff_ne]
        intro hae
        rw [hae, hsn] at hs
        cases hs
      exact ⟨hsn, by simp [List.find?, hne, hfind]⟩
    · rw [if_neg hs] at h
      rcases List.mem_cons.mp h with rfl | hmem
      · refine ⟨by simpa using hs, ?_⟩
        simp [List.find?]
      · obtain ⟨hsn, hfind⟩ := ih _ hmem
        have hsn' : (e.name == a.name || seen e.name) = false := hsn
        have hne : (a.name == e.name) = false := by
          rw [beq_eq_false_iff_ne]
          intro hae
          simp [hae.symm] at hsn'
        refine ⟨by simpa using (Bool.or_eq_false_iff.mp hsn').2, ?_⟩
        simp [List.find?, hne, hfind]

theorem find?_keptItems (items : List EItem) (seen : String → Bool) (n : String)
    (e : EItem) (hfind : items.find? (fun x => x.name == n) = some e)
    (hs : seen n = false) : e ∈ keptItems items seen := by
  induction items generalizing seen with
  | nil => simp [List.find?] at hfind
  | cons a ls ih =>
    by_cases ha : a.name = n
    · have : (a :: ls).find? (fun x => x.name == n) = some a := by
        simp [List.find?, ha]
      rw [this] at hfind
      obtain rfl : a = e := Option.some.inj hfind
      have hsa : seen a.name = false := by rw [ha]; exact hs
      simp only [keptItems]
      rw [if_neg (by simp [hsa])]
      exact List.mem_cons_self a _
    · have hne : (a.name == n) = false := by rw [beq_eq_false_iff_ne]; exact ha
      have hfind' : ls.find? (fun x => x.name == n) = some e := by
        simpa [List.find?, hne] using hfind
      simp only [keptItems]
      by_cases hsa : seen a.name
      · rw [if_pos hsa]
        exact ih _ hfind' hs
      · rw [if_neg hsa]
        refine List.mem_cons_of_mem a (ih _ hfind' ?_)
        have : (n == a.name) = false := by
          rw [beq_eq_false_iff_ne]
          exact fun hna => ha hna.symm
        simp [this, hs]

theorem findLastItemId_mem (L : List EItem) (i : Nat) (e : EItem)
    (h : findLastItemId L i = some e) : e ∈ L ∧ i = apidItem e := by
  induction L with
  | nil => simp [findLastItemId] at h
  | cons a ls ih =>
    simp only [findLastItemId] at h
    cases hfl : findLastItemId ls i with
    | some x =>
      rw [hfl] at h
      injection h with hxl
      subst hxl
      obtain ⟨hm, hi⟩ := ih hfl
      exact ⟨List.mem_cons_of_mem a hm, hi⟩
    | none =>
      rw [hfl] at h
      by_cases hi : i = apidItem a
      · rw [if_pos hi] at h
        obtain rfl : a = e := Option.some.inj h
        exact ⟨List.mem_cons_self a ls, hi⟩
      · rw [if_neg hi] at h
        cases h

theorem findLastItemId_of_mem (L : List EItem) (e : EItem) (he : e ∈ L)
    (hinj : ∀ x ∈ L, ∀ y ∈ L, apidItem x = apidItem y → x = y) :
    findLastItemId L (apidItem e) = some e := by
  induction L with
  | nil => simp at he
  | cons a ls ih =>
    simp only [findLastItemId]
    rcases List.mem_cons.mp he with rfl | hmem
    · cases hfl : findLastItemId ls (apidItem e) with
      | some x =>
        have hx := findLastItemId_mem ls (apidItem e) x hfl
        have hxl : x = e :=
          hinj x (List.mem_cons_of_mem _ hx.1) e (List.mem_cons_self _ _) hx.2.symm
        rw [hxl]
      | none => simp
    · have hrec := ih hmem (fun x hx y hy =>
        hinj x (List.mem_cons_of_mem _ hx) y (List.mem_cons_of_mem _ hy))
      rw [hrec]

/-! ## C2: the two mappings are mutual inverses off the synthetic names -/

/-- C2: given the catalog invariants (in-range indexes, distinct
`(category, index)` keys, distinct location names, and no entry named after a
synthetic), the built `name_to_id`/`id_to_raw` pairs are mutual inverses for
every non-synthetic entry: a name's id resolves back to an entry bearing that
name, every id key is the numeric id of its entry and resolves back through
the entry's name, and the synthetic names `Done` and `Victory` map to no
numeric id. -/
theorem mappings_mutual_inverse (locs : List Loc) (items : List EItem)
    (hLname : ∀ l₁ ∈ locs, ∀ l₂ ∈ locs, l₁.name = l₂.name → l₁ = l₂)
    (hLkey : ∀ l₁ ∈ locs, ∀ l₂ ∈ locs, l₁.type = l₂.type → l₁.index = l₂.index → l₁ = l₂)
    (hLbound : ∀ l ∈ locs, l.index < _capacity l.type)
    (hLdone : ∀ l ∈ locs, l.name ≠ "Done")
    (hIkey : ∀ e₁ ∈ items, ∀ e₂ ∈ items, e₁.type = e₂.type → e₁.index = e₂.index → e₁ = e₂)
    (hIbound : ∀ e ∈ items, e.index < _capacity e.type)
    (hIvic : ∀ e ∈ items, e.name ≠ "Victory") :
    (∀ n i, n ≠ "Done" → (_get_location_mapping locs).1 n = some (some i) →
      ∃ l, (_get_location_mapping locs).2 i = some l ∧ l.name = n) ∧
    (∀ i l, (_get_location_mapping locs).2 i = some l →
      i = apidLoc l ∧ (_get_location_mapping locs).1 l.name = some (some i)) ∧
    (_get_location_mapping locs).1 "Done" = some none ∧
    (∀ n i, n ≠ "Victory" → (_get_item_mapping items).1 n = some (some i) →
      ∃ e, (_get_item_mapping items).2 i = some e ∧ e.name = n) ∧
    (∀ i e, (_get_item_mapping items).2 i = some e →
      i = apidItem e ∧ (_get_item_mapping items).1 e.name = some (some i)) ∧
    (_get_item_mapping items).1 "Victory" = some none := by
  have hLinj := apidLoc_inj_on locs hLbound hLkey
  have hIinj := apidItem_inj_on items hIbound hIkey
  refine ⟨?_, ?_, by simp [_get_location_mapping], ?_, ?_,
    by simp [_get_item_mapping]⟩
  · -- location name → id → entry
    intro n i hn hmap
    simp only [_get_location_mapping] at hmap
    rw [if_neg hn, locFold_fst] at hmap
    cases hfl : findLastName locs n with
    | none => rw [hfl] at hmap; cases hmap
    | some l =>
      rw [hfl] at hmap
      have hil : i = apidLoc l := by
        injection hmap with h1
        injection h1 with h2
        exact h2.symm
      obtain ⟨hmem, hname⟩ := findLastName_mem locs n l hfl
      refine ⟨l, ?_, hname⟩
      simp only [_get_location_mapping]
      rw [locFold_snd, hil, findLastLocId_of_mem locs l hmem hLinj]
  · -- location id key → entry and back
    intro i l hmap
    simp only [_get_location_mapping] at hmap
    rw [locFold_snd] at hmap
    cases hfl : findLastLocId locs i with
    | none => rw [hfl] at hmap; cases hmap
    | some x =>
      rw [hfl] at hmap
      obtain rfl : x = l := Option.some.inj hmap
      obtain ⟨hmem, hi⟩ := findLastLocId_mem locs i x hfl
      refine ⟨hi, ?_⟩
      simp only [_get_location_mapping]
      rw [if_neg (hLdone x hmem), locFold_fst,
        findLastName_of_mem locs x hmem hLname, hi]
  · -- item name → id → entry
    intro n i hn hmap
    simp only [_get_item_mapping] at hmap
    rw [if_neg hn, itemFold_fst] at hmap
    simp only at hmap
    cases hfind : items.find? (fun e => e.name == n) with
    | none => rw [hfind] at hmap; cases hmap
    | some e =>
      rw [hfind] at hmap
      have hie : i = apidItem e := by
        injection hmap with h1
        injection h1 with h2
        exact h2.symm
      have hmem : e ∈ items := List.mem_of_find?_eq_some hfind
      have hname : e.name = n := by
        have := List.find?_some hfind
        exact beq_iff_eq.mp this
      refine ⟨e, ?_, hname⟩
      simp only [_get_item_mapping]
      rw [itemFold_snd, hie]
      have hkept : e ∈ keptItems items
          (fun m => ((fun _ => (none : Option (Option Nat))) m).isSome) :=
        find?_keptItems items _ n e hfind rfl
      have hinjK : ∀ x ∈ keptItems items
            (fun m => ((fun _ => (none : Option (Option Nat))) m).isSome),
          ∀ y ∈ keptItems items
            (fun m => ((fun _ => (none : Option (Option Nat))) m).isSome),
          apidItem x = apidItem y → x = y := fun x hx y hy =>
        hIinj x (keptItems_subset _ _ _ hx) y (keptItems_subset _ _ _ hy)
      rw [findLastItemId_of_mem _ e hkept hinjK]
  · -- item id key → entry and back
    intro i e hmap
    simp only [_get_item_mapping] at hmap
    rw [itemFold_snd] at hmap
    cases hfl : findLastItemId (keptItems items
        (fun m => ((fun _ => (none : Option (Option Nat))) m).isSome)) i with
    | none => rw [hfl] at hmap; cases hmap
    | some x =>
      rw [hfl] at hmap
      obtain rfl : x = e := Option.some.inj hmap
      obtain ⟨hkept, hi⟩ := findLastItemId_mem _ i x hfl
      have hmem : x ∈ items := keptItems_subset _ _ _ hkept
      obtain ⟨_, hfind⟩ := keptItems_first items _ x hkept
      refine ⟨hi, ?_⟩
      simp only [_get_item_mapping]
      rw [if_neg (hIvic x hmem), itemFold_fst]
      simp only
      rw [hfind, hi]

theorem mappings_mutual_inverse_witness :
    (∀ n i, n ≠ "Done" →
      (_get_location_mapping
        [⟨CheckType.alchemy, 0, "A0", []⟩, ⟨CheckType.gourd, 5, "G5", []⟩]).1 n =
        some (some i) →
      ∃ l, (_get_location_mapping
        [⟨CheckType.alchemy, 0, "A0", []⟩, ⟨CheckType.gourd, 5, "G5", []⟩]).2 i =
        some l ∧ l.name = n) ∧
    (∀ i l, (_get_location_mapping
        [⟨CheckType.alchemy, 0, "A0", []⟩, ⟨CheckType.gourd, 5, "G5", []⟩]).2 i =
        some l →
      i = apidLoc l ∧ (_get_location_mapping
        [⟨CheckType.alchemy, 0, "A0", []⟩, ⟨CheckType.gourd, 5, "G5", []⟩]).1 l.name =
        some (some i)) ∧
    (_get_location_mapping
      [⟨CheckType.alchemy, 0, "A0", []⟩, ⟨CheckType.gourd, 5, "G5", []⟩]).1 "Done" =
      some none ∧
    (∀ n i, n ≠ "Victory" →
      (_get_item_mapping
        [⟨CheckType.boss, 1, "B1", true⟩, ⟨CheckType.boss, 2, "B1", false⟩]).1 n =
        some (some i) →
      ∃ e, (_get_item_mapping
        [⟨CheckType.boss, 1, "B1", true⟩, ⟨CheckType.boss, 2, "B1", false⟩]).2 i =
        some e ∧ e.name = n) ∧
    (∀ i e, (_get_item_mapping
        [⟨CheckType.boss, 1, "B1", true⟩, ⟨CheckType.boss, 2, "B1", false⟩]).2 i =
        some e →
      i = apidItem e ∧ (_get_item_mapping
        [⟨CheckType.boss, 1, "B1", true⟩, ⟨CheckType.boss, 2, "B1", false⟩]).1 e.name =
        some (some i)) ∧
    (_get_item_mapping
      [⟨CheckType.boss, 1, "B1", true⟩, ⟨CheckType.boss, 2, "B1", false⟩]).1 "Victory" =
      some none :=
  mappings_mutual_inverse
    [⟨CheckType.alchemy, 0, "A0", []⟩, ⟨CheckType.gourd, 5, "G5", []⟩]
    [⟨CheckType.boss, 1, "B1", true⟩, ⟨CheckType.boss, 2, "B1", false⟩]
    (by decide) (by decide) (by decide) (by decide)
    (by decide) (by decide) (by decide)

/-! ## C1: placement-file serialization -/

theorem linesFor_length (f : FilledLocation → Option String) :
    ∀ L out, linesFor f L = some out → out.length = L.length := by
  intro L
  induction L with
  | nil =>
    intro out h
    obtain rfl : [] = out := Option.some.inj h
    rfl
  | cons l ls ih =>
    intro out h
    simp only [linesFor] at h
    cases hf : f l with
    | none => rw [hf] at h; cases h
    | some s =>
      rw [hf] at h
      cases hrest : linesFor f ls with
      | none => rw [hrest] at h; cases h
      | some rest =>
        rw [hrest] at h
        obtain rfl : s :: rest = out := Option.some.inj h
        simp [ih rest hrest]

theorem linesFor_mem (f : FilledLocation → Option String) :
    ∀ L out, linesFor f L = some out → ∀ s ∈ out, ∃ l ∈ L, f l = some s := by
  intro L
  induction L with
  | nil =>
    intro out h s hs
    obtain rfl : [] = out := Option.some.inj h
    simp at hs
  | cons l ls ih =>
    intro out h s hs
    simp only [linesFor] at h
    cases hf : f l with
    | none => rw [hf] at h; cases h
    | some s₀ =>
      rw [hf] at h
      cases hrest : linesFor f ls with
      | none => rw [hrest] at h; cases h
      | some rest =>
        rw [hrest] at h
        obtain rfl : s₀ :: rest = out := Option.some.inj h
        rcases List.mem_cons.mp hs with rfl | hmem
        · exact ⟨l, List.mem_cons_self l ls, hf⟩
        · obtain ⟨l', hl', hf'⟩ := ih rest hrest s hmem
          exact ⟨l', List.mem_cons_of_mem l hl', hf'⟩

theorem specLineFor_newline (p : Nat) (tc : CheckType → Nat) (noneCode : Nat)
    (locRaw : Nat → Option Loc) (itemRaw : Nat → Option EItem)
    (l : FilledLocation) (s : String)
    (h : specLineFor p tc noneCode locRaw itemRaw l = some s) :
    ∃ u, s = u ++ "\n" := by
  simp only [specLineFor, Option.bind_eq_bind] at h
  cases hcode : l.item.code with
  | none => rw [hcode] at h; cases h
  | some c =>
    rw [hcode] at h
    cases haddr : l.address.bind locRaw with
    | none => rw [haddr] at h; cases h
    | some loc =>
      rw [haddr] at h
      simp only [Option.some_bind] at h
      by_cases hip : l.item.player ≠ p
      · rw [if_pos hip] at h
        obtain rfl : foreignLine tc noneCode loc c l.item.player = s :=
          Option.some.inj h
        exact ⟨_, rfl⟩
      · rw [if_neg hip] at h
        cases hir : itemRaw c with
        | none => rw [hir] at h; cases h
        | some e =>
          rw [hir] at h
          simp only [Option.some_bind] at h
          obtain rfl : ownLine tc loc e = s := Option.some.inj h
          exact ⟨_, rfl⟩

theorem placementLines_eq_spec (p : Nat) (tc : CheckType → Nat) (noneCode : Nat)
    (locRaw : Nat → Option Loc) (itemRaw : Nat → Option EItem) :
    ∀ ls, placementLines p tc noneCode locRaw itemRaw ls =
      serializeSpec p tc noneCode locRaw itemRaw ls := by
  intro ls
  induction ls with
  | nil => rfl
  | cons l ls ih =>
    simp only [placementLines, serializeSpec, List.filter_cons]
    by_cases hp : l.player = p
    · rw [if_pos hp]
      cases hcode : l.item.code with
      | none =>
        rw [show (l.player == p && (none : Option Nat).isSome) = false by simp]
        rw [if_neg (by simp : ¬((false : Bool) = true))]
        exact ih
      | some c =>
        rw [show (l.player == p && (some c).isSome) = true by simp [hp]]
        rw [if_pos rfl]
        cases haddr : l.address.bind locRaw with
        | none =>
          have hline : specLineFor p tc noneCode locRaw itemRaw l = none := by
            simp [specLineFor, hcode, haddr]
          simp only [linesFor, hline]
        | some loc =>
          dsimp only
          by_cases hip : l.item.player ≠ p
          · have hline : specLineFor p tc noneCode locRaw itemRaw l =
                some (foreignLine tc noneCode loc c l.item.player) := by
              simp [specLineFor, hcode, haddr, hip]
            rw [if_pos hip, ih]
            unfold serializeSpec
            simp only [linesFor, hline]
            cases hrest : linesFor (specLineFor p tc noneCode locRaw itemRaw)
                (List.filter (fun l => l.player == p && l.item.code.isSome) ls) with
            | none => rfl
            | some rest => rfl
          · rw [if_neg hip]
            cases hir : itemRaw c with
            | none =>
              have hline : specLineFor p tc noneCode locRaw itemRaw l = none := by
                simp [specLineFor, hcode, haddr, hip, hir]
              simp only [linesFor, hline]
            | some e =>
              have hline : specLineFor p tc noneCode locRaw itemRaw l =
                  some (ownLine tc loc e) := by
                simp [specLineFor, hcode, haddr, hip, hir]
              rw [ih]
              unfold serializeSpec
              simp only [linesFor, hline]
              cases hrest : linesFor (specLineFor p tc noneCode locRaw itemRaw)
                  (List.filter (fun l => l.player == p && l.item.code.isSome) ls) with
              | none => rfl
              | some rest => rfl
    · rw [if_neg hp]
      rw [show (l.player == p && l.item.code.isSome) = false by simp [hp]]
      rw [if_neg (by simp : ¬((false : Bool) = true))]
      exact ih

/-- C1: the placement-file generation loop emits exactly one newline-terminated
line for every location owned by the player whose item is non-event (events
are skipped), agreeing everywhere with the specification serializer — the
location's native pair mapped to the item's native pair for a same-player
item, or to the `CHECK_NONE` code plus item code and owning player for a
foreign item. -/
theorem placement_serialization_spec (p : Nat) (tc : CheckType → Nat)
    (noneCode : Nat) (locRaw : Nat → Option Loc) (itemRaw : Nat → Option EItem)
    (ls : List FilledLocation) :
    placementLines p tc noneCode locRaw itemRaw ls =
      serializeSpec p tc noneCode locRaw itemRaw ls ∧
    (∀ out, placementLines p tc noneCode locRaw itemRaw ls = some out →
      out.length = (ls.filter (fun l => l.player == p && l.item.code.isSome)).length ∧
      ∀ s ∈ out, ∃ u, s = u ++ "\n") := by
  refine ⟨placementLines_eq_spec p tc noneCode locRaw itemRaw ls, ?_⟩
  intro out hout
  rw [placementLines_eq_spec] at hout
  unfold serializeSpec at hout
  constructor
  · exact linesFor_length _ _ out hout
  · intro s hs
    obtain ⟨l, _, hf⟩ := linesFor_mem _ _ out hout s hs
    exact specLineFor_newline p tc noneCode locRaw itemRaw l s hf

theorem placement_serialization_spec_witness :
    placementLines 1 (fun _ => 0) 0
      (fun _ => some ⟨CheckType.alchemy, 0, "A0", []⟩)
      (fun _ => some ⟨CheckType.alchemy, 0, "I0", false⟩)
      [⟨1, some 64000, ⟨"I0", false, some 64000, 1⟩⟩,
       ⟨1, none, ⟨"Victory", true, none, 1⟩⟩,
       ⟨2, some 64001, ⟨"X", false, some 5, 2⟩⟩] =
      serializeSpec 1 (fun _ => 0) 0
        (fun _ => some ⟨CheckType.alchemy, 0, "A0", []⟩)
        (fun _ => some ⟨CheckType.alchemy, 0, "I0", false⟩)
        [⟨1, some 64000, ⟨"I0", false, some 64000, 1⟩⟩,
         ⟨1, none, ⟨"Victory", true, none, 1⟩⟩,
         ⟨2, some 64001, ⟨"X", false, some 5, 2⟩⟩] ∧
    (∀ out, placementLines 1 (fun _ => 0) 0
        (fun _ => some ⟨CheckType.alchemy, 0, "A0", []⟩)
        (fun _ => some ⟨CheckType.alchemy, 0, "I0", false⟩)
        [⟨1, some 64000, ⟨"I0", false, some 64000, 1⟩⟩,
         ⟨1, none, ⟨"Victory", true, none, 1⟩⟩,
         ⟨2, some 64001, ⟨"X", false, some 5, 2⟩⟩] = some out →
      out.length = (List.filter (fun l => l.player == 1 && l.item.code.isSome)
        [(⟨1, some 64000, ⟨"I0", false, some 64000, 1⟩⟩ : FilledLocation),
         ⟨1, none, ⟨"Victory", true, none, 1⟩⟩,
         ⟨2, some 64001, ⟨"X", false, some 5, 2⟩⟩]).length ∧
      ∀ s ∈ out, ∃ u, s = u ++ "\n") :=
  placement_serialization_spec 1 (fun _ => 0) 0
    (fun _ => some ⟨CheckType.alchemy, 0, "A0", []⟩)
    (fun _ => some ⟨CheckType.alchemy, 0, "I0", false⟩)
    [⟨1, some 64000, ⟨"I0", false, some 64000, 1⟩⟩,
     ⟨1, none, ⟨"Victory", true, none, 1⟩⟩,
     ⟨2, some 64001, ⟨"X", false, some 5, 2⟩⟩]

end SoE
